import Mathlib

/-!
Verification of the lintrunner configuration / VCS core.

This file shallowly embeds the code of `src/lint_config.rs` and
`src/sapling.rs`.  External boundaries are parameters:

* reading the file and the TOML parse (`fs::read_to_string` + `toml::from_str`)
  become an `Except ConfigError LintRunnerConfig` argument;
* `glob::Pattern::new` becomes a `compile : String → Option P` argument
  (`none` = compilation failure of that pattern string);
* the filesystem existence check inside `path::AbsPath::try_from` becomes an
  `fsExists : String → Bool` argument;
* subprocess invocations become their observed outcome (exit status, stdout).

Machine strings are Lean `String`s; Rust `HashSet<String>` arguments are
modelled by their membership lists, and the `HashSet` collect in
`get_changed_files` by `List.dedup` (membership and nodup statements are
independent of the set's arbitrary iteration order).
-/

deriving instance DecidableEq for Except

/-- Rust `str::contains` with a literal pattern restricted to what the code
needs: `needle` occurs as a contiguous substring of `hay`.  Implemented as a
direct scan over the character lists. -/
def listPrefixOf : List Char → List Char → Bool
  | [], _ => true
  | _ :: _, [] => false
  | a :: as, b :: bs => a = b && listPrefixOf as bs

/-- Substring occurrence check on character lists. -/
def listInfixOf (needle : List Char) : List Char → Bool
  | [] => listPrefixOf needle []
  | c :: tl => listPrefixOf needle (c :: tl) || listInfixOf needle tl

/-- `strContains hay needle` models Rust `hay.contains(needle)`. -/
def strContains (hay needle : String) : Bool :=
  listInfixOf needle.data hay.data

/-- `arg.contains("{{DRYRUN}}")` from `lint_config.rs`. -/
def containsDryRun (arg : String) : Bool :=
  strContains arg "\x7b\x7bDRYRUN\x7d\x7d"

/-- Error surface of the configuration loader (spec §7).  The TOML stage
errors are carried through the `parsed` parameter. -/
inductive ConfigError where
  | configNotFound (path : String)
  | schemaError (path : String)
  | missingDryRunPlaceholder (linterName : String)
  | patternError (rawPattern : String)
  deriving DecidableEq, Repr

/-- One `[[linter]]` record of the TOML file, after deserialization
(struct `LintConfig` in `lint_config.rs`). -/
structure LintConfig where
  name : String
  include_patterns : List String
  exclude_patterns : Option (List String)
  args : List String
  init_args : Option (List String)
  bypass_matched_file_filter : Bool
  deriving DecidableEq, Repr

/-- Struct `LintRunnerConfig` in `lint_config.rs`. -/
structure LintRunnerConfig where
  linters : List LintConfig
  deriving DecidableEq, Repr

/-- A `LintConfig` record as it sits in the TOML file: the
`bypass_matched_file_filter` field may be absent (`none`). -/
structure RawLintConfig where
  name : String
  include_patterns : List String
  exclude_patterns : Option (List String)
  args : List String
  init_args : Option (List String)
  bypass_matched_file_filter : Option Bool
  deriving DecidableEq, Repr

/-- Modelled from the spec: serde deserialization of one record.  The field
`bypass_matched_file_filter` carries `#[serde(default)]` (line 23 of
`lint_config.rs`), so an absent field deserializes to `Bool`'s default,
`false`; every other field is passed through. -/
def deserializeLintConfig (raw : RawLintConfig) : LintConfig :=
  { name := raw.name
    include_patterns := raw.include_patterns
    exclude_patterns := raw.exclude_patterns
    args := raw.args
    init_args := raw.init_args
    bypass_matched_file_filter := raw.bypass_matched_file_filter.getD false }

/-- The validation loop inside `LintRunnerConfig::new`: find the first linter
record that declares `init_args` all of whose tokens lack the `DRYRUN`
placeholder, returning its name. -/
def findMissingDryRun : List LintConfig → Option String
  | [] => none
  | lc :: rest =>
    match lc.init_args with
    | some ia =>
      if ia.all (fun arg => !containsDryRun arg) then some lc.name
      else findMissingDryRun rest
    | none => findMissingDryRun rest

/-- `LintRunnerConfig::new`: read + TOML parse (the `parsed` parameter),
then the dry-run placeholder validation pass, bailing at the first
offending linter. -/
def LintRunnerConfig.new (parsed : Except ConfigError LintRunnerConfig) :
    Except ConfigError LintRunnerConfig :=
  match parsed with
  | Except.error e => Except.error e
  | Except.ok config =>
    match findMissingDryRun config.linters with
    | some n => Except.error (ConfigError.missingDryRunPlaceholder n)
    | none => Except.ok config

/-- Struct `Linter` (its fields as constructed in
`get_linters_from_config`), parametric in the compiled-pattern type `P`. -/
structure Linter (P : Type) where
  name : String
  include_patterns : List P
  exclude_patterns : List P
  commands : List String
  init_commands : Option (List String)
  config_path : String
  bypass_matched_file_filter : Bool
  deriving DecidableEq, Repr

/-- `patterns_from_strs`: compile each pattern string, short-circuiting at
the first failure with a `patternError` naming the raw pattern (the Rust
`collect::<Result<Vec<Pattern>>>` semantics). -/
def patterns_from_strs {P : Type} (compile : String → Option P) :
    List String → Except ConfigError (List P)
  | [] => Except.ok []
  | s :: rest =>
    match compile s with
    | none => Except.error (ConfigError.patternError s)
    | some p =>
      match patterns_from_strs compile rest with
      | Except.ok ps => Except.ok (p :: ps)
      | Except.error e => Except.error e

/-- The construction loop of `get_linters_from_config`: compile each
record's include patterns, then its exclude patterns (empty when absent),
and build the `Linter` value. -/
def buildLinters {P : Type} (compile : String → Option P) (config_path : String) :
    List LintConfig → Except ConfigError (List (Linter P))
  | [] => Except.ok []
  | lc :: rest =>
    match patterns_from_strs compile lc.include_patterns with
    | Except.error e => Except.error e
    | Except.ok inc =>
      match
        (match lc.exclude_patterns with
          | some ex => patterns_from_strs compile ex
          | none => Except.ok []) with
      | Except.error e => Except.error e
      | Except.ok exc =>
        match buildLinters compile config_path rest with
        | Except.error e => Except.error e
        | Except.ok ls =>
          Except.ok
            ({ name := lc.name
               include_patterns := inc
               exclude_patterns := exc
               commands := lc.args
               init_commands := lc.init_args
               config_path := config_path
               bypass_matched_file_filter := lc.bypass_matched_file_filter } :: ls)

/-- The `--take` rebinding in `get_linters_from_config`: when a take set is
given, keep exactly the linters whose name it contains. -/
def takeStep {P : Type} (taken_linters : Option (List String))
    (linters : List (Linter P)) : List (Linter P) :=
  match taken_linters with
  | some taken => linters.filter (fun l => taken.contains l.name)
  | none => linters

/-- The `--skip` rebinding in `get_linters_from_config`: when a skip set is
given, drop exactly the linters whose name it contains. -/
def skipStep {P : Type} (skipped_linters : Option (List String))
    (linters : List (Linter P)) : List (Linter P) :=
  match skipped_linters with
  | some skipped => linters.filter (fun l => !skipped.contains l.name)
  | none => linters

/-- `get_linters_from_config`: load and validate the config, build the
linter list in configuration order, then apply `--take` and `--skip` as
name-membership filters, in that order. -/
def get_linters_from_config {P : Type} (compile : String → Option P)
    (parsed : Except ConfigError LintRunnerConfig) (config_path : String)
    (skipped_linters taken_linters : Option (List String)) :
    Except ConfigError (List (Linter P)) :=
  match LintRunnerConfig.new parsed with
  | Except.error e => Except.error e
  | Except.ok config =>
    match buildLinters compile config_path config.linters with
    | Except.error e => Except.error e
    | Except.ok linters =>
      Except.ok (skipStep skipped_linters (takeStep taken_linters linters))

/-! ## Sapling adapter (`sapling.rs`) -/

/-- Error surface of the VCS adapter operations modelled here. -/
inductive VcsError where
  | commandFailed
  | invalidUtf8
  | pathResolutionError (raw : String)
  deriving DecidableEq, Repr

/-- Rust `str::trim` on the character list (Rust trims Unicode whitespace;
revision identifiers and status output only ever carry its ASCII subset,
`Char.isWhitespace`). -/
def trimChars (cs : List Char) : List Char :=
  ((cs.dropWhile Char.isWhitespace).reverse.dropWhile Char.isWhitespace).reverse

/-- `str::trim` as a `String` operation. -/
def rustTrim (s : String) : String :=
  String.mk (trimChars s.data)

/-- `get_merge_base_with`, as a function of the subprocess outcome: `ensure!`
on the exit status, then UTF-8 decode of stdout (`stdout` is `none` when the
bytes are not valid UTF-8), then `trim` — the trimmed string is returned as
success whatever it is. -/
def get_merge_base_with (status_success : Bool) (stdout : Option String) :
    Except VcsError String :=
  if !status_success then Except.error VcsError.commandFailed
  else
    match stdout with
    | none => Except.error VcsError.invalidUtf8
    | some s => Except.ok (rustTrim s)

/-- Character class `[A-Z?]` of the status regex in `get_changed_files`. -/
def isStatusChar (c : Char) : Bool :=
  ('A' ≤ c && c ≤ 'Z') || c = '?'

/-- The `\s` class of the Rust regex crate, restricted to its ASCII part
(status lines never contain the exotic Unicode whitespace). -/
def isRegexWhitespace (c : Char) : Bool :=
  c = ' ' || c = '\t' || c = '\n' || c = '\x0b' || c = '\x0c' || c = '\r'

/-- Rust `str::starts_with(c)` / first-character test, on the character
list. -/
def startsWithChar (c : Char) (line : List Char) : Bool :=
  match line with
  | [] => false
  | a :: _ => a = c

/-- Rust `str::split(sep)` over the character list: `n` separators yield
`n + 1` pieces, empty pieces included. -/
def splitOnChar (sep : Char) : List Char → List (List Char)
  | [] => [[]]
  | c :: rest =>
    if c = sep then [] :: splitOnChar sep rest
    else
      match splitOnChar sep rest with
      | [] => [[c]]
      | piece :: pieces => (c :: piece) :: pieces

/-- `re.replace(&line, "")` with `re = ^[A-Z?]\s+`: if the line starts with a
status character followed by at least one whitespace character, remove that
character and the (maximal, `+` is greedy) whitespace run; otherwise the line
is unchanged. -/
def stripStatusPrefix : List Char → List Char
  | c1 :: c2 :: rest =>
    if isStatusChar c1 && isRegexWhitespace c2 then
      (c2 :: rest).dropWhile isRegexWhitespace
    else c1 :: c2 :: rest
  | line => line

/-- `Path::is_absolute` on Unix: the path starts with a separator. -/
def isAbsolute (f : String) : Bool :=
  startsWithChar '/' f.data

/-- `PathBuf::join` on Unix for the shapes occurring here: an absolute
right operand replaces the root, a relative one is appended after a
separator. -/
def pathJoin (root f : String) : String :=
  if isAbsolute f then f else root ++ "/" ++ f

/-- Modelled from the spec: `path::AbsPath::try_from` (module `path` is not
under `src/`) — construction succeeds exactly when the string is an absolute
path that exists (spec §3 "a filesystem path guaranteed to be absolute and to
exist (construction fails otherwise)"); existence is the `fsExists`
parameter. -/
def absPathTryFrom (fsExists : String → Bool) (f : String) : Option String :=
  if isAbsolute f && fsExists f then some f else none

/-- The parsing pipeline of `get_changed_files` producing the
`commit_files` set: split stdout on newlines, drop lines starting with `D`,
strip the status prefix, drop empty lines, and collect into a set
(canonically: `List.dedup`, whose membership and nodup properties are
exactly those of the Rust `HashSet`). -/
def commitFiles (stdout : String) : List String :=
  (((((splitOnChar '\n' stdout.data).filter
        (fun line => !startsWithChar 'D' line)).map stripStatusPrefix).filter
      (fun line => !line.isEmpty)).dedup).map String.mk

/-- The resolution loop of `get_changed_files`: join each set element with
the repository root and run it through `AbsPath::try_from`, failing the whole
call at the first entry that does not resolve. -/
def resolveAll (fsExists : String → Bool) (root : String) :
    List String → Except VcsError (List String)
  | [] => Except.ok []
  | f :: rest =>
    match absPathTryFrom fsExists (pathJoin root f) with
    | none => Except.error (VcsError.pathResolutionError (pathJoin root f))
    | some p =>
      match resolveAll fsExists root rest with
      | Except.ok ps => Except.ok (p :: ps)
      | Except.error e => Except.error e

/-- `get_changed_files`, as a function of the status subprocess stdout (the
exit-status and UTF-8 checks happen before this parse and are not modelled;
`relative_to` only changes the subprocess arguments, not the parse). -/
def get_changed_files (fsExists : String → Bool) (root : String)
    (stdout : String) : Except VcsError (List String) :=
  resolveAll fsExists root (commitFiles stdout)

/-! Concrete fixtures used by the witness theorems. -/

/-- A pattern compiler under which every string compiles (to itself). -/
def idCompile : String → Option String := fun s => some s

/-- A configured linter named `A`. -/
def lintA : LintConfig := ⟨"A", ["**"], none, [], none, false⟩

/-- A configured linter named `B`. -/
def lintB : LintConfig := ⟨"B", ["*.py"], none, [], none, false⟩

/-- A two-linter parsed configuration. -/
def parsedAB : Except ConfigError LintRunnerConfig :=
  Except.ok ⟨[lintA, lintB]⟩

/-- The `Linter` built from `lintA`. -/
def builtA : Linter String := ⟨"A", ["**"], [], [], none, "/c", false⟩

/-- The `Linter` built from `lintB`. -/
def builtB : Linter String := ⟨"B", ["*.py"], [], [], none, "/c", false⟩

/-- A raw record with the bypass field absent. -/
def rawNoBypass : RawLintConfig := ⟨"A", ["**"], none, [], none, none⟩

/-! ## Helper lemmas -/

theorem listPrefixOf_iff (needle hay : List Char) :
    listPrefixOf needle hay = true ↔ needle <+: hay := by
  induction needle generalizing hay with
  | nil => simp [listPrefixOf, List.nil_prefix]
  | cons a as ih =>
    cases hay with
    | nil => simp [listPrefixOf]
    | cons b bs =>
      simp [listPrefixOf, List.cons_prefix_cons, ih, and_comm]

theorem listInfixOf_iff (needle hay : List Char) :
    listInfixOf needle hay = true ↔ needle <:+: hay := by
  induction hay with
  | nil =>
    cases needle <;> simp [listInfixOf, listPrefixOf]
  | cons c tl ih =>
    simp [listInfixOf, List.infix_cons_iff, listPrefixOf_iff, ih]

theorem containsDryRun_iff (arg : String) :
    containsDryRun arg = true ↔ "\x7b\x7bDRYRUN\x7d\x7d".data <:+: arg.data :=
  listInfixOf_iff _ _

theorem findMissingDryRun_eq_none_iff (cfgs : List LintConfig) :
    findMissingDryRun cfgs = none ↔
      ∀ lc ∈ cfgs, ∀ ia, lc.init_args = some ia → ∃ a ∈ ia, containsDryRun a = true := by
  induction cfgs with
  | nil => simp [findMissingDryRun]
  | cons lc rest ih =>
    constructor
    · intro h lc' hmem ia' hia'
      rcases List.mem_cons.mp hmem with rfl | hmem'
      · simp only [findMissingDryRun, hia'] at h
        cases hall : ia'.all (fun arg => !containsDryRun arg) with
        | true => rw [hall] at h; simp at h
        | false =>
          rcases List.all_eq_false.mp hall with ⟨a, ha, hc⟩
          exact ⟨a, ha, by simpa using hc⟩
      · refine ih.mp ?_ lc' hmem' ia' hia'
        simp only [findMissingDryRun] at h
        cases hia : lc.init_args with
        | none => simp only [hia] at h; exact h
        | some ia =>
          simp only [hia] at h
          cases hall : ia.all (fun arg => !containsDryRun arg) with
          | true => rw [hall] at h; simp at h
          | false => rw [hall] at h; simpa using h
    · intro h
      simp only [findMissingDryRun]
      cases hia : lc.init_args with
      | none =>
        simp only [hia]
        exact ih.mpr (fun lc' hm => h lc' (List.mem_cons_of_mem _ hm))
      | some ia =>
        simp only [hia]
        cases hall : ia.all (fun arg => !containsDryRun arg) with
        | false =>
          simpa using ih.mpr (fun lc' hm => h lc' (List.mem_cons_of_mem _ hm))
        | true =>
          exfalso
          obtain ⟨a, ha, hc⟩ := h lc (List.mem_cons_self _ _) ia hia
          have := List.all_eq_true.mp hall a ha
          simp [hc] at this

theorem findMissingDryRun_some (cfgs : List LintConfig) (n : String)
    (h : findMissingDryRun cfgs = some n) :
    ∃ lc ∈ cfgs, lc.name = n ∧
      ∃ ia, lc.init_args = some ia ∧ ∀ a ∈ ia, containsDryRun a = false := by
  induction cfgs with
  | nil => simp [findMissingDryRun] at h
  | cons lc rest ih =>
    simp only [findMissingDryRun] at h
    cases hia : lc.init_args with
    | none =>
      simp only [hia] at h
      obtain ⟨lc', hmem, hrest⟩ := ih h
      exact ⟨lc', List.mem_cons_of_mem _ hmem, hrest⟩
    | some ia =>
      simp only [hia] at h
      cases hall : ia.all (fun arg => !containsDryRun arg) with
      | true =>
        rw [hall] at h
        simp only [if_true] at h
        cases h
        refine ⟨lc, List.mem_cons_self _ _, rfl, ia, hia, ?_⟩
        intro a ha
        have := List.all_eq_true.mp hall a ha
        simpa using this
      | false =>
        rw [hall] at h
        simp only [Bool.false_eq_true, if_false] at h
        obtain ⟨lc', hmem, hrest⟩ := ih h
        exact ⟨lc', List.mem_cons_of_mem _ hmem, hrest⟩

theorem new_ok_eq (cfg : LintRunnerConfig) :
    LintRunnerConfig.new (Except.ok cfg) =
      (match findMissingDryRun cfg.linters with
       | some n => Except.error (ConfigError.missingDryRunPlaceholder n)
       | none => Except.ok cfg) := rfl

theorem containsDryRun_eq_false_iff (a : String) :
    containsDryRun a = false ↔ ¬ ("\x7b\x7bDRYRUN\x7d\x7d".data <:+: a.data) := by
  rw [← containsDryRun_iff]
  cases containsDryRun a <;> simp

/-! ## Claims -/

/-- C1: loading fails with a `MissingDryRunPlaceholder` error if and only if
some linter record has `init_args` present and none of its tokens contains
the substring `{{DRYRUN}}`; the error names such a linter, and if each
present `init_args` has a token containing the substring, validation
succeeds. -/
theorem dry_run_placeholder_validation (cfg : LintRunnerConfig) :
    ((∃ n, LintRunnerConfig.new (Except.ok cfg) =
        Except.error (ConfigError.missingDryRunPlaceholder n)) ↔
      ∃ lc ∈ cfg.linters, ∃ ia, lc.init_args = some ia ∧
        ∀ a ∈ ia, ¬ ("\x7b\x7bDRYRUN\x7d\x7d".data <:+: a.data)) ∧
    (∀ n, LintRunnerConfig.new (Except.ok cfg) =
        Except.error (ConfigError.missingDryRunPlaceholder n) →
      ∃ lc ∈ cfg.linters, lc.name = n ∧ ∃ ia, lc.init_args = some ia ∧
        ∀ a ∈ ia, ¬ ("\x7b\x7bDRYRUN\x7d\x7d".data <:+: a.data)) ∧
    ((∀ lc ∈ cfg.linters, ∀ ia, lc.init_args = some ia →
        ∃ a ∈ ia, "\x7b\x7bDRYRUN\x7d\x7d".data <:+: a.data) →
      LintRunnerConfig.new (Except.ok cfg) = Except.ok cfg) := by
  refine ⟨⟨?_, ?_⟩, ?_, ?_⟩
  · rintro ⟨n, hn⟩
    rw [new_ok_eq] at hn
    cases hf : findMissingDryRun cfg.linters with
    | none => simp only [hf] at hn; exact Except.noConfusion hn
    | some m =>
      obtain ⟨lc, hmem, _, ia, hia, hall⟩ := findMissingDryRun_some _ m hf
      exact ⟨lc, hmem, ia, hia,
        fun a ha => (containsDryRun_eq_false_iff a).mp (hall a ha)⟩
  · rintro ⟨lc, hmem, ia, hia, hall⟩
    cases hf : findMissingDryRun cfg.linters with
    | some m => exact ⟨m, by rw [new_ok_eq]; simp only [hf]⟩
    | none =>
      exfalso
      obtain ⟨a, ha, hc⟩ := (findMissingDryRun_eq_none_iff _).mp hf lc hmem ia hia
      exact hall a ha ((containsDryRun_iff a).mp hc)
  · intro n hn
    rw [new_ok_eq] at hn
    cases hf : findMissingDryRun cfg.linters with
    | none => simp only [hf] at hn; exact Except.noConfusion hn
    | some m =>
      simp only [hf, Except.error.injEq,
        ConfigError.missingDryRunPlaceholder.injEq] at hn
      subst hn
      obtain ⟨lc, hmem, hname, ia, hia, hall⟩ := findMissingDryRun_some _ m hf
      exact ⟨lc, hmem, hname, ia, hia,
        fun a ha => (containsDryRun_eq_false_iff a).mp (hall a ha)⟩
  · intro h
    rw [new_ok_eq]
    have hf : findMissingDryRun cfg.linters = none := by
      rw [findMissingDryRun_eq_none_iff]
      intro lc hmem ia hia
      obtain ⟨a, ha, hinf⟩ := h lc hmem ia hia
      exact ⟨a, ha, (containsDryRun_iff a).mpr hinf⟩
    simp only [hf]

/-- C5 counterexample: a merge-base subprocess that exits successfully with
empty stdout makes `get_merge_base_with` return an empty-string success, not
an error — refuting "for every successful invocation, the returned revision
identifier is non-empty". -/
theorem merge_base_empty_success_counterexample :
    get_merge_base_with true (some "") = Except.ok "" ∧
      ("" : String).length = 0 := by
  exact ⟨rfl, rfl⟩

/-- C5 (amended): when the subprocess exits successfully and its stdout is
valid UTF-8, `get_merge_base_with` returns the trimmed stdout as a success
even when it is empty; it errors only on a non-zero exit status or invalid
UTF-8 output. -/
theorem merge_base_returns_trimmed_stdout (s : String) (out : Option String) :
    get_merge_base_with true (some s) = Except.ok (rustTrim s) ∧
    get_merge_base_with false out = Except.error VcsError.commandFailed ∧
    get_merge_base_with true none = Except.error VcsError.invalidUtf8 :=
  ⟨rfl, rfl, rfl⟩

theorem forall₂_exists_left {α β : Type _} {R : α → β → Prop}
    {l₁ : List α} {l₂ : List β} (h : List.Forall₂ R l₁ l₂) {a : α}
    (ha : a ∈ l₁) : ∃ b ∈ l₂, R a b := by
  induction h with
  | nil => simp at ha
  | cons hr _ ih =>
    rcases List.mem_cons.mp ha with rfl | ha'
    · exact ⟨_, List.mem_cons_self _ _, hr⟩
    · obtain ⟨b, hb, hrb⟩ := ih ha'
      exact ⟨b, List.mem_cons_of_mem _ hb, hrb⟩

theorem patterns_from_strs_ok_spec {P : Type} (compile : String → Option P)
    (strs : List String) (ps : List P)
    (h : patterns_from_strs compile strs = Except.ok ps) :
    List.Forall₂ (fun s p => compile s = some p) strs ps := by
  induction strs generalizing ps with
  | nil =>
    simp only [patterns_from_strs, Except.ok.injEq] at h
    subst h
    exact List.Forall₂.nil
  | cons s rest ih =>
    simp only [patterns_from_strs] at h
    cases hc : compile s with
    | none => rw [hc] at h; exact Except.noConfusion h
    | some p =>
      rw [hc] at h
      cases hr : patterns_from_strs compile rest with
      | error e => rw [hr] at h; exact Except.noConfusion h
      | ok tail =>
        rw [hr] at h
        simp only [Except.ok.injEq] at h
        subst h
        exact List.Forall₂.cons hc (ih tail hr)

theorem patterns_from_strs_error_spec {P : Type} (compile : String → Option P)
    (strs : List String) (e : ConfigError)
    (h : patterns_from_strs compile strs = Except.error e) :
    ∃ r ∈ strs, e = ConfigError.patternError r ∧ compile r = none := by
  induction strs with
  | nil => simp [patterns_from_strs] at h
  | cons s rest ih =>
    simp only [patterns_from_strs] at h
    cases hc : compile s with
    | none =>
      rw [hc] at h
      simp only [Except.error.injEq] at h
      exact ⟨s, List.mem_cons_self _ _, h.symm, hc⟩
    | some p =>
      rw [hc] at h
      cases hr : patterns_from_strs compile rest with
      | ok tail => rw [hr] at h; exact Except.noConfusion h
      | error e' =>
        rw [hr] at h
        simp only [Except.error.injEq] at h
        subst h
        obtain ⟨r, hmem, he, hcr⟩ := ih hr
        exact ⟨r, List.mem_cons_of_mem _ hmem, he, hcr⟩

theorem patterns_from_strs_error_of {P : Type} (compile : String → Option P)
    (strs : List String) (hbad : ∃ r ∈ strs, compile r = none) :
    ∃ r ∈ strs, compile r = none ∧
      patterns_from_strs compile strs = Except.error (ConfigError.patternError r) := by
  cases hres : patterns_from_strs compile strs with
  | ok ps =>
    obtain ⟨r, hmem, hcr⟩ := hbad
    obtain ⟨p, -, hp⟩ := forall₂_exists_left (patterns_from_strs_ok_spec _ _ _ hres) hmem
    rw [hcr] at hp
    exact Option.noConfusion hp
  | error e =>
    obtain ⟨r, hmem, he, hcr⟩ := patterns_from_strs_error_spec _ _ _ hres
    exact ⟨r, hmem, hcr, by rw [he]⟩

theorem buildLinters_ok_spec {P : Type} (compile : String → Option P)
    (path : String) (cfgs : List LintConfig) (ls : List (Linter P))
    (h : buildLinters compile path cfgs = Except.ok ls) :
    List.Forall₂ (fun lc (l : Linter P) =>
      l.name = lc.name ∧
      l.bypass_matched_file_filter = lc.bypass_matched_file_filter ∧
      l.commands = lc.args ∧ l.init_commands = lc.init_args ∧
      l.config_path = path) cfgs ls := by
  induction cfgs generalizing ls with
  | nil =>
    simp only [buildLinters, Except.ok.injEq] at h
    subst h
    exact List.Forall₂.nil
  | cons lc rest ih =>
    simp only [buildLinters] at h
    cases hinc : patterns_from_strs compile lc.include_patterns with
    | error e => rw [hinc] at h; exact Except.noConfusion h
    | ok inc =>
      rw [hinc] at h
      cases hexc :
          (match lc.exclude_patterns with
            | some ex => patterns_from_strs compile ex
            | none => Except.ok ([] : List P)) with
      | error e => rw [hexc] at h; exact Except.noConfusion h
      | ok exc =>
        rw [hexc] at h
        cases hrest : buildLinters compile path rest with
        | error e => rw [hrest] at h; exact Except.noConfusion h
        | ok tail =>
          rw [hrest] at h
          simp only [Except.ok.injEq] at h
          subst h
          exact List.Forall₂.cons ⟨rfl, rfl, rfl, rfl, rfl⟩ (ih tail hrest)

theorem buildLinters_error_of_bad {P : Type} (compile : String → Option P)
    (path : String) (cfgs : List LintConfig)
    (hbad : ∃ lc ∈ cfgs,
      (∃ r ∈ lc.include_patterns, compile r = none) ∨
      (∃ ex, lc.exclude_patterns = some ex ∧ ∃ r ∈ ex, compile r = none)) :
    ∃ r, compile r = none ∧
      buildLinters compile path cfgs =
        Except.error (ConfigError.patternError r) := by
  induction cfgs with
  | nil => simp at hbad
  | cons lc rest ih =>
    cases hinc : patterns_from_strs compile lc.include_patterns with
    | error e =>
      obtain ⟨r, hmem, he, hcr⟩ := patterns_from_strs_error_spec _ _ _ hinc
      refine ⟨r, hcr, ?_⟩
      simp only [buildLinters, hinc, he]
    | ok inc =>
      cases hexc :
          (match lc.exclude_patterns with
            | some ex => patterns_from_strs compile ex
            | none => Except.ok ([] : List P)) with
      | error e =>
        have : ∃ r, e = ConfigError.patternError r ∧ compile r = none := by
          cases hop : lc.exclude_patterns with
          | none => rw [hop] at hexc; exact Except.noConfusion hexc
          | some ex =>
            rw [hop] at hexc
            obtain ⟨r, _, he, hcr⟩ := patterns_from_strs_error_spec _ _ _ hexc
            exact ⟨r, he, hcr⟩
        obtain ⟨r, he, hcr⟩ := this
        refine ⟨r, hcr, ?_⟩
        simp only [buildLinters, hinc, hexc, he]
      | ok exc =>
        have hnothead : ∀ lc' ∈ [lc],
            ¬ ((∃ r ∈ lc'.include_patterns, compile r = none) ∨
              (∃ ex, lc'.exclude_patterns = some ex ∧
                ∃ r ∈ ex, compile r = none)) := by
          intro lc' hlc'
          rcases List.mem_singleton.mp hlc' with rfl
          rintro (⟨r, hmem, hcr⟩ | ⟨ex, hop, r, hmem, hcr⟩)
          · obtain ⟨p, -, hp⟩ :=
              forall₂_exists_left (patterns_from_strs_ok_spec _ _ _ hinc) hmem
            rw [hcr] at hp
            exact Option.noConfusion hp
          · rw [hop] at hexc
            obtain ⟨p, -, hp⟩ :=
              forall₂_exists_left (patterns_from_strs_ok_spec _ _ _ hexc) hmem
            rw [hcr] at hp
            exact Option.noConfusion hp
        have hrest : ∃ lc' ∈ rest,
            (∃ r ∈ lc'.include_patterns, compile r = none) ∨
            (∃ ex, lc'.exclude_patterns = some ex ∧
              ∃ r ∈ ex, compile r = none) := by
          obtain ⟨lc', hmem, hprop⟩ := hbad
          rcases List.mem_cons.mp hmem with rfl | hmem'
          · exact absurd hprop (hnothead lc' (List.mem_singleton_self _))
          · exact ⟨lc', hmem', hprop⟩
        obtain ⟨r, hcr, hb⟩ := ih hrest
        refine ⟨r, hcr, ?_⟩
        simp only [buildLinters, hinc, hexc, hb]

theorem get_linters_new_error {P : Type} (compile : String → Option P)
    (parsed : Except ConfigError LintRunnerConfig) (path : String)
    (skip tk : Option (List String)) (e : ConfigError)
    (h : LintRunnerConfig.new parsed = Except.error e) :
    get_linters_from_config compile parsed path skip tk = Except.error e := by
  unfold get_linters_from_config
  rw [h]

theorem get_linters_eq_ok {P : Type} (compile : String → Option P)
    (parsed : Except ConfigError LintRunnerConfig) (path : String)
    (skip tk : Option (List String)) (cfg : LintRunnerConfig)
    (h : LintRunnerConfig.new parsed = Except.ok cfg) :
    get_linters_from_config compile parsed path skip tk =
      (match buildLinters compile path cfg.linters with
       | Except.error e => Except.error e
       | Except.ok linters =>
         Except.ok (skipStep skip (takeStep tk linters))) := by
  unfold get_linters_from_config
  rw [h]

theorem get_linters_ok_iff {P : Type} (compile : String → Option P)
    (parsed : Except ConfigError LintRunnerConfig) (path : String)
    (skip tk : Option (List String)) (ls : List (Linter P)) :
    get_linters_from_config compile parsed path skip tk = Except.ok ls ↔
      ∃ cfg all, LintRunnerConfig.new parsed = Except.ok cfg ∧
        buildLinters compile path cfg.linters = Except.ok all ∧
        ls = skipStep skip (takeStep tk all) := by
  constructor
  · intro h
    cases hnew : LintRunnerConfig.new parsed with
    | error e =>
      rw [get_linters_new_error compile parsed path skip tk e hnew] at h
      exact Except.noConfusion h
    | ok cfg =>
      rw [get_linters_eq_ok compile parsed path skip tk cfg hnew] at h
      cases hb : buildLinters compile path cfg.linters with
      | error e => rw [hb] at h; exact Except.noConfusion h
      | ok all =>
        rw [hb] at h
        simp only [Except.ok.injEq] at h
        exact ⟨cfg, all, rfl, hb, h.symm⟩
  · rintro ⟨cfg, all, hnew, hb, hls⟩
    rw [get_linters_eq_ok compile parsed path skip tk cfg hnew, hb, hls]

theorem contains_eq_decide_mem (l : List String) (x : String) :
    l.contains x = decide (x ∈ l) := by
  by_cases hx : x ∈ l <;> simp [hx]

/-- C3: a name present in both the `--take` and the `--skip` set is excluded
from the selection: the two are independent filters applied take-then-skip,
so no linter of that name survives. -/
theorem take_and_skip_same_name_excludes {P : Type} (compile : String → Option P)
    (parsed : Except ConfigError LintRunnerConfig) (path : String)
    (s t : List String) (n : String) (hs : n ∈ s) (ht : n ∈ t)
    (ls : List (Linter P))
    (h : get_linters_from_config compile parsed path (some s) (some t) =
      Except.ok ls) :
    ∀ l ∈ ls, l.name ≠ n := by
  obtain ⟨cfg, all, -, -, rfl⟩ :=
    (get_linters_ok_iff compile parsed path (some s) (some t) ls).mp h
  intro l hl hname
  simp only [skipStep] at hl
  rw [List.mem_filter] at hl
  have h2 : (!s.contains l.name) = true := hl.2
  rw [hname] at h2
  have h3 : s.contains n = true := by simp [hs]
  rw [h3] at h2
  exact Bool.noConfusion h2

/-- C3 witness: with config `[A, B]`, take `{A, B}` and skip `{A}` with `A`
in both sets, the surviving linter is not named `A`. -/
theorem take_and_skip_same_name_excludes_witness : builtB.name ≠ "A" :=
  take_and_skip_same_name_excludes idCompile parsedAB "/c" ["A"] ["A", "B"] "A"
    (by decide) (by decide) [builtB] (by decide) builtB (by decide)

/-- C4: with a take set the selection is exactly the name-membership filter
of the configured (built) linter list, a sublist of it (so relative order is
the configuration file's); with a skip set the selection removes exactly the
records whose name is in the skip set and keeps the rest in order. -/
theorem take_skip_filter_semantics {P : Type} (compile : String → Option P)
    (parsed : Except ConfigError LintRunnerConfig) (path : String)
    (t s : List String) (all : List (Linter P))
    (hall : get_linters_from_config compile parsed path none none =
      Except.ok all) :
    (get_linters_from_config compile parsed path none (some t) =
        Except.ok (all.filter (fun l => decide (l.name ∈ t))) ∧
      List.Sublist (all.filter (fun l => decide (l.name ∈ t))) all ∧
      ∀ l, l ∈ all.filter (fun l => decide (l.name ∈ t)) ↔
        l ∈ all ∧ l.name ∈ t) ∧
    (get_linters_from_config compile parsed path (some s) none =
        Except.ok (all.filter (fun l => decide (l.name ∉ s))) ∧
      List.Sublist (all.filter (fun l => decide (l.name ∉ s))) all ∧
      ∀ l, l ∈ all.filter (fun l => decide (l.name ∉ s)) ↔
        l ∈ all ∧ l.name ∉ s) := by
  obtain ⟨cfg, all0, hnew, hb, heq⟩ :=
    (get_linters_ok_iff compile parsed path none none all).mp hall
  simp only [skipStep, takeStep] at heq
  subst heq
  refine ⟨⟨?_, List.filter_sublist _, fun l => by simp [List.mem_filter]⟩,
    ⟨?_, List.filter_sublist _, fun l => by simp [List.mem_filter]⟩⟩
  · refine (get_linters_ok_iff compile parsed path none (some t) _).mpr
      ⟨cfg, all, hnew, hb, ?_⟩
    simp only [skipStep, takeStep]
    exact (List.filter_congr
      (fun l _ => contains_eq_decide_mem t l.name)).symm
  · refine (get_linters_ok_iff compile parsed path (some s) none _).mpr
      ⟨cfg, all, hnew, hb, ?_⟩
    simp only [skipStep, takeStep]
    refine (List.filter_congr (fun l _ => ?_)).symm
    by_cases hx : l.name ∈ s <;> simp [hx]

/-- C4 witness: with config `[A, B]`, taking `{B}` keeps exactly the linter
named `B`, and skipping `{A}` likewise leaves exactly `B`. -/
theorem take_skip_filter_semantics_witness :
    get_linters_from_config idCompile parsedAB "/c" none (some ["B"]) =
        Except.ok [builtB] ∧
      get_linters_from_config idCompile parsedAB "/c" (some ["A"]) none =
        Except.ok [builtB] := by
  have h := take_skip_filter_semantics idCompile parsedAB "/c" ["B"] ["A"]
    [builtA, builtB] (by decide)
  refine ⟨?_, ?_⟩
  · rw [h.1.1]; decide
  · rw [h.2.1]; decide

/-- C6: skip and take sets containing names matching no configured linter
never cause an error — the selection succeeds and equals the selection
computed from the known names alone. -/
theorem unknown_names_ignored {P : Type} (compile : String → Option P)
    (parsed : Except ConfigError LintRunnerConfig) (path : String)
    (s t : List String) (all : List (Linter P))
    (hall : get_linters_from_config compile parsed path none none =
      Except.ok all) :
    (∃ ls, get_linters_from_config compile parsed path (some s) (some t) =
      Except.ok ls) ∧
    get_linters_from_config compile parsed path (some s) (some t) =
      get_linters_from_config compile parsed path
        (some (s.filter (fun m => decide (m ∈ all.map (fun l => l.name)))))
        (some (t.filter (fun m => decide (m ∈ all.map (fun l => l.name))))) := by
  obtain ⟨cfg, all0, hnew, hb, heq⟩ :=
    (get_linters_ok_iff compile parsed path none none all).mp hall
  simp only [skipStep, takeStep] at heq
  subst heq
  have hmemfilter : ∀ (u : List String) (x : String),
      x ∈ all.map (fun l => l.name) →
      (u.filter (fun m =>
        decide (m ∈ all.map (fun l => l.name)))).contains x = u.contains x := by
    intro u x hknown
    rw [contains_eq_decide_mem, contains_eq_decide_mem]
    by_cases hx : x ∈ u
    · have hx' : x ∈ u.filter (fun m =>
          decide (m ∈ all.map (fun l => l.name))) :=
        List.mem_filter.mpr ⟨hx, by simpa using hknown⟩
      rw [decide_eq_true hx', decide_eq_true hx]
    · have hx' : x ∉ u.filter (fun m =>
          decide (m ∈ all.map (fun l => l.name))) :=
        fun hmem => hx (List.mem_filter.mp hmem).1
      simp [hx, hx']
  constructor
  · exact ⟨_, (get_linters_ok_iff compile parsed path (some s) (some t) _).mpr
      ⟨cfg, all, hnew, hb, rfl⟩⟩
  · rw [(get_linters_ok_iff compile parsed path (some s) (some t) _).mpr
      ⟨cfg, all, hnew, hb, rfl⟩]
    rw [(get_linters_ok_iff compile parsed path _ _ _).mpr
      ⟨cfg, all, hnew, hb, rfl⟩]
    have htake : takeStep (some t) all =
        takeStep (some (t.filter (fun m =>
          decide (m ∈ all.map (fun l => l.name))))) all := by
      simp only [takeStep]
      refine List.filter_congr (fun l hl => ?_)
      exact (hmemfilter t l.name (List.mem_map_of_mem _ hl)).symm
    rw [htake]
    have hskip : skipStep (some s)
        (takeStep (some (t.filter (fun m =>
          decide (m ∈ all.map (fun l => l.name))))) all) =
        skipStep (some (s.filter (fun m =>
          decide (m ∈ all.map (fun l => l.name)))))
        (takeStep (some (t.filter (fun m =>
          decide (m ∈ all.map (fun l => l.name))))) all) := by
      simp only [skipStep, takeStep]
      refine List.filter_congr (fun l hl => ?_)
      have hl0 : l ∈ all := List.mem_of_mem_filter hl
      rw [hmemfilter s l.name (List.mem_map_of_mem _ hl0)]
    rw [hskip]

/-- C6 witness: with config `[A, B]`, unknown names `ZZZ` and `YYY` in the
skip and take sets are ignored and the selection succeeds. -/
theorem unknown_names_ignored_witness :
    get_linters_from_config idCompile parsedAB "/c"
      (some ["A", "ZZZ"]) (some ["A", "B", "YYY"]) = Except.ok [builtB] := by
  have h := unknown_names_ignored idCompile parsedAB "/c" ["A", "ZZZ"]
    ["A", "B", "YYY"] [builtA, builtB] (by decide)
  rw [h.2]; decide

/-- C7: pattern compilation is all-or-nothing — if any pattern string in a
batch fails to compile, the whole batch fails with a `patternError` naming a
failing raw pattern; if every string compiles, the batch returns one
compiled pattern per input string (pointwise); and a configuration with a
linter whose include or exclude list holds an uncompilable glob makes
`get_linters_from_config` fail with a `patternError`. -/
theorem pattern_batch_all_or_nothing {P : Type} (compile : String → Option P) :
    (∀ strs : List String, (∃ r ∈ strs, compile r = none) →
      ∃ r ∈ strs, compile r = none ∧
        patterns_from_strs compile strs =
          Except.error (ConfigError.patternError r)) ∧
    (∀ strs ps, patterns_from_strs compile strs = Except.ok ps →
      List.Forall₂ (fun s p => compile s = some p) strs ps) ∧
    (∀ parsed path skip tk cfg,
      LintRunnerConfig.new parsed = Except.ok cfg →
      ∀ lc ∈ cfg.linters,
        ((∃ r ∈ lc.include_patterns, compile r = none) ∨
          (∃ ex, lc.exclude_patterns = some ex ∧
            ∃ r ∈ ex, compile r = none)) →
        ∃ r, compile r = none ∧
          get_linters_from_config compile parsed path skip tk =
            Except.error (ConfigError.patternError r)) := by
  refine ⟨patterns_from_strs_error_of compile,
    patterns_from_strs_ok_spec compile, ?_⟩
  intro parsed path skip tk cfg hnew lc hmem hbad
  obtain ⟨r, hcr, hb⟩ :=
    buildLinters_error_of_bad compile path cfg.linters ⟨lc, hmem, hbad⟩
  refine ⟨r, hcr, ?_⟩
  rw [get_linters_eq_ok compile parsed path skip tk cfg hnew, hb]

/-- C9: a TOML record omitting `bypass_matched_file_filter` deserializes
with the field `false`, and every linter built from such a record carries a
`false` bypass flag. -/
theorem bypass_filter_defaults_false (raw : RawLintConfig)
    (h : raw.bypass_matched_file_filter = none) :
    (deserializeLintConfig raw).bypass_matched_file_filter = false ∧
    ∀ {P : Type} (compile : String → Option P) (path : String)
      (ls : List (Linter P)),
      buildLinters compile path [deserializeLintConfig raw] = Except.ok ls →
      ∀ l ∈ ls, l.bypass_matched_file_filter = false := by
  have hbp : (deserializeLintConfig raw).bypass_matched_file_filter = false := by
    simp [deserializeLintConfig, h]
  refine ⟨hbp, ?_⟩
  intro P compile path ls hb l hl
  have hf := buildLinters_ok_spec compile path _ ls hb
  cases hf with
  | cons hr htail =>
    cases htail
    rcases List.mem_singleton.mp hl with rfl
    rw [hr.2.1]
    exact hbp

/-- C9 witness: the record `rawNoBypass` omits the field; it deserializes to
`false` and the linter built from it carries a `false` flag. -/
theorem bypass_filter_defaults_false_witness :
    (deserializeLintConfig rawNoBypass).bypass_matched_file_filter = false ∧
    builtA.bypass_matched_file_filter = false := by
  have h := bypass_filter_defaults_false rawNoBypass (by decide)
  exact ⟨h.1, h.2 idCompile "/c" [builtA] (by decide) builtA (by decide)⟩

theorem absPathTryFrom_some {fe : String → Bool} {f p : String}
    (h : absPathTryFrom fe f = some p) : p = f := by
  unfold absPathTryFrom at h
  by_cases hc : (isAbsolute f && fe f) = true
  · rw [if_pos hc] at h; exact (Option.some.inj h).symm
  · rw [if_neg hc] at h; exact Option.noConfusion h

theorem absPathTryFrom_some_of (fe : String → Bool) (f : String)
    (habs : isAbsolute f = true) (hfe : fe f = true) :
    absPathTryFrom fe f = some f := by
  simp [absPathTryFrom, habs, hfe]

theorem isAbsolute_append (root y : String) (h : isAbsolute root = true) :
    isAbsolute (root ++ y) = true := by
  unfold isAbsolute at *
  rw [String.data_append]
  cases hd : root.data with
  | nil => rw [hd] at h; simpa [startsWithChar] using h
  | cons c cs =>
    rw [hd] at h
    simpa [startsWithChar] using h

theorem resolveAll_ok_of_all (fe : String → Bool) (root : String)
    (fs : List String)
    (h : ∀ f ∈ fs, absPathTryFrom fe (pathJoin root f) = some (pathJoin root f)) :
    resolveAll fe root fs = Except.ok (fs.map (pathJoin root)) := by
  induction fs with
  | nil => rfl
  | cons f fs ih =>
    have hf := h f (List.mem_cons_self _ _)
    have hr := ih (fun g hg => h g (List.mem_cons_of_mem _ hg))
    unfold resolveAll
    rw [hf, hr]
    rfl

theorem resolveAll_error_of_bad (fe : String → Bool) (root : String)
    (fs : List String)
    (h : ∃ f ∈ fs, absPathTryFrom fe (pathJoin root f) = none) :
    ∃ f ∈ fs, absPathTryFrom fe (pathJoin root f) = none ∧
      resolveAll fe root fs =
        Except.error (VcsError.pathResolutionError (pathJoin root f)) := by
  induction fs with
  | nil => simp at h
  | cons g fs ih =>
    cases hg : absPathTryFrom fe (pathJoin root g) with
    | none =>
      refine ⟨g, List.mem_cons_self _ _, hg, ?_⟩
      unfold resolveAll
      rw [hg]
    | some p =>
      have hbad : ∃ f ∈ fs, absPathTryFrom fe (pathJoin root f) = none := by
        obtain ⟨f, hmem, hn⟩ := h
        rcases List.mem_cons.mp hmem with rfl | hmem'
        · rw [hg] at hn; exact Option.noConfusion hn
        · exact ⟨f, hmem', hn⟩
      obtain ⟨f, hmem, hn, he⟩ := ih hbad
      refine ⟨f, List.mem_cons_of_mem _ hmem, hn, ?_⟩
      unfold resolveAll
      rw [hg, he]

theorem resolveAll_ok_spec (fe : String → Bool) (root : String) :
    ∀ (fs : List String) (ps : List String),
      resolveAll fe root fs = Except.ok ps → ps = fs.map (pathJoin root) := by
  intro fs
  induction fs with
  | nil =>
    intro ps h
    simp only [resolveAll, Except.ok.injEq] at h
    rw [← h]
    rfl
  | cons f fs ih =>
    intro ps h
    unfold resolveAll at h
    cases hg : absPathTryFrom fe (pathJoin root f) with
    | none => rw [hg] at h; exact Except.noConfusion h
    | some p =>
      rw [hg] at h
      cases hr : resolveAll fe root fs with
      | error e => rw [hr] at h; exact Except.noConfusion h
      | ok ps' =>
        rw [hr] at h
        simp only [Except.ok.injEq] at h
        subst h
        simp only [List.map_cons]
        rw [ih ps' hr, absPathTryFrom_some hg]

theorem commitFiles_nodup_aux (stdout : String) : (commitFiles stdout).Nodup := by
  unfold commitFiles
  exact (List.nodup_dedup _).map (fun a b hab => by injection hab)

theorem commitFiles_mem_iff (stdout : String) (f : String) :
    f ∈ commitFiles stdout ↔
      ∃ line ∈ splitOnChar '\n' stdout.data,
        startsWithChar 'D' line = false ∧ stripStatusPrefix line ≠ [] ∧
        f = String.mk (stripStatusPrefix line) := by
  unfold commitFiles
  constructor
  · intro hf
    obtain ⟨cs, hcs, rfl⟩ := List.mem_map.mp hf
    rw [List.mem_dedup] at hcs
    obtain ⟨hcs', hne⟩ := List.mem_filter.mp hcs
    obtain ⟨line, hline, rfl⟩ := List.mem_map.mp hcs'
    obtain ⟨hsplit, hD⟩ := List.mem_filter.mp hline
    refine ⟨line, hsplit, ?_, ?_, rfl⟩
    · simpa using hD
    · simpa using hne
  · rintro ⟨line, hsplit, hD, hne, rfl⟩
    refine List.mem_map.mpr ⟨stripStatusPrefix line, ?_, rfl⟩
    rw [List.mem_dedup]
    refine List.mem_filter.mpr ⟨?_, ?_⟩
    · exact List.mem_map.mpr
        ⟨line, List.mem_filter.mpr ⟨hsplit, by simpa using hD⟩, rfl⟩
    · simpa using hne

theorem splitOnChar_eq_self_of_not_mem (sep : Char) (l : List Char)
    (h : sep ∉ l) : splitOnChar sep l = [l] := by
  induction l with
  | nil => rfl
  | cons c tl ih =>
    have hc : ¬ c = sep := by
      rintro rfl
      exact h (List.mem_cons_self _ _)
    unfold splitOnChar
    rw [if_neg hc, ih (fun hm => h (List.mem_cons_of_mem _ hm))]

/-- C2: `get_changed_files` output is the deduplicated set of non-deleted,
prefix-stripped status lines, each joined with the repository root (stated
as: the commit-file set is nodup, a successful result is exactly the join of
that set, and membership in the set characterizes the surviving lines); in
particular on lines `M  src/a.rs`, `D  src/old.rs`, `?  src/new.rs` the
result holds `src/a.rs` and `src/new.rs` under the root and not
`src/old.rs`. -/
theorem changed_files_parse_and_example (fe : String → Bool)
    (root stdout : String)
    (hroot : isAbsolute root = true)
    (hfa : fe (root ++ "/src/a.rs") = true)
    (hfn : fe (root ++ "/src/new.rs") = true) :
    (commitFiles stdout).Nodup ∧
    (∀ ps, get_changed_files fe root stdout = Except.ok ps →
      ps = (commitFiles stdout).map (pathJoin root)) ∧
    (∀ f, f ∈ commitFiles stdout ↔
      ∃ line ∈ splitOnChar '\n' stdout.data,
        startsWithChar 'D' line = false ∧ stripStatusPrefix line ≠ [] ∧
        f = String.mk (stripStatusPrefix line)) ∧
    (∃ ps, get_changed_files fe root
        "M  src/a.rs\nD  src/old.rs\n?  src/new.rs" = Except.ok ps ∧
      (root ++ "/src/a.rs") ∈ ps ∧ (root ++ "/src/new.rs") ∈ ps ∧
      (root ++ "/src/old.rs") ∉ ps) := by
  refine ⟨commitFiles_nodup_aux stdout,
    fun ps h => resolveAll_ok_spec fe root _ ps h,
    fun f => commitFiles_mem_iff stdout f, ?_⟩
  have hcf : commitFiles "M  src/a.rs\nD  src/old.rs\n?  src/new.rs" =
      ["src/a.rs", "src/new.rs"] := by decide
  have hdiva : ("/" ++ "src/a.rs" : String) = "/src/a.rs" := by decide
  have hdivn : ("/" ++ "src/new.rs" : String) = "/src/new.rs" := by decide
  have hja : pathJoin root "src/a.rs" = root ++ "/src/a.rs" := by
    unfold pathJoin
    rw [if_neg (by decide), String.append_assoc, hdiva]
  have hjn : pathJoin root "src/new.rs" = root ++ "/src/new.rs" := by
    unfold pathJoin
    rw [if_neg (by decide), String.append_assoc, hdivn]
  have hres : get_changed_files fe root
      "M  src/a.rs\nD  src/old.rs\n?  src/new.rs" =
      Except.ok ((["src/a.rs", "src/new.rs"] : List String).map
        (pathJoin root)) := by
    unfold get_changed_files
    rw [hcf]
    apply resolveAll_ok_of_all
    intro f hf
    rcases List.mem_cons.mp hf with rfl | hf'
    · rw [hja]
      exact absPathTryFrom_some_of fe _ (isAbsolute_append root _ hroot) hfa
    · rcases List.mem_singleton.mp hf' with rfl
      rw [hjn]
      exact absPathTryFrom_some_of fe _ (isAbsolute_append root _ hroot) hfn
  refine ⟨_, hres, ?_, ?_, ?_⟩
  · simp only [List.map_cons, List.map_nil, hja]
    exact List.mem_cons_self _ _
  · simp only [List.map_cons, List.map_nil, hja, hjn]
    exact List.mem_cons_of_mem _ (List.mem_cons_self _ _)
  · simp only [List.map_cons, List.map_nil, hja, hjn]
    intro hmem
    rcases List.mem_cons.mp hmem with heq | hmem'
    · have hd : (root ++ "/src/old.rs").data = (root ++ "/src/a.rs").data := by
        rw [heq]
      rw [String.data_append, String.data_append] at hd
      exact absurd (String.ext (List.append_cancel_left hd)) (by decide)
    · rcases List.mem_singleton.mp hmem' with heq
      have hd : (root ++ "/src/old.rs").data =
          (root ++ "/src/new.rs").data := by rw [heq]
      rw [String.data_append, String.data_append] at hd
      exact absurd (String.ext (List.append_cancel_left hd)) (by decide)

/-- C2 witness: at root `/repo` with an all-true existence check, the
example status output resolves to the two joined non-deleted paths. -/
theorem changed_files_parse_and_example_witness :
    ∃ ps, get_changed_files (fun _ => true) "/repo"
        "M  src/a.rs\nD  src/old.rs\n?  src/new.rs" = Except.ok ps ∧
      (("/repo" ++ "/src/a.rs" : String)) ∈ ps ∧
      (("/repo" ++ "/src/new.rs" : String)) ∈ ps ∧
      (("/repo" ++ "/src/old.rs" : String)) ∉ ps :=
  (changed_files_parse_and_example (fun _ => true) "/repo" ""
    (by decide) rfl rfl).2.2.2

/-- C8: if any surviving status entry joins to a path whose absolute-path
construction fails, the whole call fails with a `pathResolutionError`
identifying one such offending joined path; no partial change set is
returned. -/
theorem path_resolution_failure_aborts (fe : String → Bool)
    (root stdout : String)
    (h : ∃ f ∈ commitFiles stdout,
      absPathTryFrom fe (pathJoin root f) = none) :
    ∃ f ∈ commitFiles stdout,
      absPathTryFrom fe (pathJoin root f) = none ∧
      get_changed_files fe root stdout =
        Except.error (VcsError.pathResolutionError (pathJoin root f)) :=
  resolveAll_error_of_bad fe root (commitFiles stdout) h

/-- C8 witness: with an existence check that always fails, the single entry
`a` of `M  a` aborts the whole call with a path-resolution error naming
`/r/a`. -/
theorem path_resolution_failure_aborts_witness :
    get_changed_files (fun _ => false) "/r" "M  a" =
      Except.error (VcsError.pathResolutionError "/r/a") := by
  obtain ⟨f, hmem, -, he⟩ := path_resolution_failure_aborts
    (fun _ => false) "/r" "M  a" ⟨"a", by decide, by decide⟩
  have hcf : commitFiles "M  a" = ["a"] := by decide
  rw [hcf] at hmem
  have hf : f = "a" := by simpa using hmem
  rw [hf] at he
  rw [show pathJoin "/r" "a" = "/r/a" from by decide] at he
  exact he

/-- C10: a non-empty status line whose first character is not an uppercase
letter or `?` (so the status regex cannot match) is kept whole: nothing is
stripped, and the entire raw line joined with the repository root is
submitted to absolute-path resolution. -/
theorem unrecognized_status_line_kept_whole (fe : String → Bool)
    (root : String) (c : Char) (rest : List Char)
    (hclass : isStatusChar c = false)
    (hnl : '\n' ∉ c :: rest) :
    commitFiles (String.mk (c :: rest)) = [String.mk (c :: rest)] ∧
    get_changed_files fe root (String.mk (c :: rest)) =
      (match absPathTryFrom fe (pathJoin root (String.mk (c :: rest))) with
       | some p => Except.ok [p]
       | none => Except.error (VcsError.pathResolutionError
           (pathJoin root (String.mk (c :: rest))))) := by
  have hD : startsWithChar 'D' (c :: rest) = false := by
    unfold startsWithChar
    by_cases hd : c = 'D'
    · subst hd; exact absurd hclass (by decide)
    · simpa using hd
  have hstrip : stripStatusPrefix (c :: rest) = c :: rest := by
    cases rest with
    | nil => rfl
    | cons c2 r2 =>
      simp only [stripStatusPrefix]
      rw [if_neg (by rw [hclass]; simp)]
  have hsplit : splitOnChar '\n' (String.mk (c :: rest)).data = [c :: rest] :=
    splitOnChar_eq_self_of_not_mem _ _ hnl
  have hcf : commitFiles (String.mk (c :: rest)) = [String.mk (c :: rest)] := by
    unfold commitFiles
    rw [hsplit]
    simp [hD, hstrip]
  refine ⟨hcf, ?_⟩
  unfold get_changed_files
  rw [hcf]
  cases habs : absPathTryFrom fe (pathJoin root (String.mk (c :: rest))) with
  | none =>
    unfold resolveAll
    rw [habs]
  | some p =>
    unfold resolveAll
    rw [habs]
    rfl

/-- C10 witness: the line `! src/x.rs` (status `!`, outside `[A-Z?]`) is
kept whole and joined raw under the root. -/
theorem unrecognized_status_line_kept_whole_witness :
    get_changed_files (fun _ => true) "/r" "! src/x.rs" =
      Except.ok ["/r/! src/x.rs"] := by
  have h := (unrecognized_status_line_kept_whole (fun _ => true) "/r" '!'
    (" src/x.rs").data (by decide) (by decide)).2
  have hs : String.mk ('!' :: (" src/x.rs").data) = "! src/x.rs" := by decide
  rw [hs] at h
  rw [h]
  decide
